import Mathlib

/-
Verification of the axi motion pipeline (src/axi/device.py, src/axi/drawing.py)
against its natural-language specification.

Python floating-point arithmetic is modelled over the rationals.  The
trajectory planner (planner.py) is not among the sources; a MotionPlan is
therefore kept abstract, following the description in the specification.
-/

namespace Axi

/-- Truncation toward zero, the behaviour of the Python int() conversion and
of the integer part returned by math.modf. -/
def pyTrunc (q : ℚ) : ℤ := if q < 0 then ⌈q⌉ else ⌊q⌋

/-- Python math.modf: returns the pair (fractional part, integer part), both
carrying the sign of the argument.  The integer part is kept as an integer
here (the source converts it with int() before use). -/
def pyModf (q : ℚ) : ℚ × ℤ := (q - pyTrunc q, pyTrunc q)

lemma abs_sub_pyTrunc_lt_one (q : ℚ) : |q - (pyTrunc q : ℚ)| < 1 := by
  rw [pyTrunc]
  split
  · have h1 := Int.ceil_lt_add_one q
    have h2 := Int.le_ceil q
    rw [abs_lt]
    constructor <;> linarith
  · have h1 := Int.lt_floor_add_one q
    have h2 := Int.floor_le q
    rw [abs_lt]
    constructor <;> linarith

lemma pyModf_fst_abs_lt_one (q : ℚ) : |(pyModf q).1| < 1 := by
  simpa [pyModf] using abs_sub_pyTrunc_lt_one q

lemma pyModf_fst_add_snd (q : ℚ) : (pyModf q).1 + ((pyModf q).2 : ℚ) = q := by
  simp [pyModf]

/-- Planner point (planner.py Point), with the sub method used by run_plan. -/
structure Pt where
  x : ℚ
  y : ℚ
deriving DecidableEq

def Pt.sub (a b : Pt) : Pt := ⟨a.x - b.x, a.y - b.y⟩

/-- Modelled from the spec: the instantaneous state returned by
MotionPlan.instant; only the position field p is used by the step
synthesizer, so only it is modelled (planner.py is not among the sources). -/
structure Instant where
  p : Pt

/-- Modelled from the spec: a MotionPlan is a total duration t and a pure
function instant from elapsed time to the instantaneous state; planner.py is
not among the sources, so the plan is kept abstract. -/
structure Plan where
  t : ℚ
  instant : ℚ → Instant

/-- device.py line 12. -/
def TIMESLICE_MS : ℕ := 15

/-- The tick duration in seconds: step_s = step_ms / 1000 with
step_ms = TIMESLICE_MS (device.py lines 140 and 141). -/
def step_s : ℚ := (TIMESLICE_MS : ℚ) / 1000

lemma step_s_pos : 0 < step_s := by norm_num [step_s, TIMESLICE_MS]

/-- Number of iterations of the while loop of Device.run_plan: the loop
variable takes the values t = k * step_s for k = 0, 1, ... and runs while
t < plan.t, hence exactly ceil(plan.t / step_s) iterations. -/
def numTicks (T : ℚ) : ℕ := (⌈T / step_s⌉).toNat

/-- Justification of the loop embedding: tick index k is executed exactly when
the while guard k * step_s < plan.t holds. -/
lemma lt_numTicks_iff (k : ℕ) (T : ℚ) : k < numTicks T ↔ (k : ℚ) * step_s < T := by
  rw [numTicks, Int.lt_toNat, Int.lt_ceil, lt_div_iff₀ step_s_pos]
  norm_cast

/-- Arguments of the XM command issued by Device.stepper_move: duration in
milliseconds and the two integer deltas, in the order they are sent. -/
structure StepCmd where
  ms : ℕ
  a : ℤ
  b : ℤ
deriving DecidableEq

/-- One iteration of the while loop of Device.run_plan (device.py lines
142 to 152), acting on the pair (commands issued so far, self.error).
The loop variable t equals k * step_s at tick k. -/
def runPlanTick (plan : Plan) (spu : ℚ) (st : List StepCmd × (ℚ × ℚ)) (k : ℕ) :
    List StepCmd × (ℚ × ℚ) :=
  let t : ℚ := (k : ℚ) * step_s
  let i1 := plan.instant t
  let i2 := plan.instant (t + step_s)
  let d := i2.p.sub i1.p
  let mx := pyModf (d.x * spu + st.2.1)
  let my := pyModf (d.y * spu + st.2.2)
  (st.1 ++ [⟨TIMESLICE_MS, mx.2, my.2⟩], (mx.1, my.1))

/-- The first n iterations of the run_plan loop, starting from accumulated
error e and no commands issued. -/
def run_plan_upto (plan : Plan) (spu : ℚ) (e : ℚ × ℚ) (n : ℕ) :
    List StepCmd × (ℚ × ℚ) :=
  (List.range n).foldl (runPlanTick plan spu) ([], e)

/-- Device.run_plan (device.py lines 139 to 153): the full loop.  spu is the
steps_per_unit field of the device, e the incoming self.error; the result is
the list of XM commands issued and the final self.error. -/
def run_plan (plan : Plan) (spu : ℚ) (e : ℚ × ℚ) : List StepCmd × (ℚ × ℚ) :=
  run_plan_upto plan spu e (numTicks plan.t)

lemma run_plan_upto_succ (plan : Plan) (spu : ℚ) (e : ℚ × ℚ) (n : ℕ) :
    run_plan_upto plan spu e (n + 1) =
      runPlanTick plan spu (run_plan_upto plan spu e n) n := by
  simp [run_plan_upto, List.range_succ]

lemma run_plan_upto_zero (plan : Plan) (spu : ℚ) (e : ℚ × ℚ) :
    run_plan_upto plan spu e 0 = ([], e) := rfl

lemma run_plan_upto_error_lt (plan : Plan) (spu : ℚ) (e : ℚ × ℚ) (n : ℕ)
    (h1 : |e.1| < 1) (h2 : |e.2| < 1) :
    |(run_plan_upto plan spu e n).2.1| < 1 ∧ |(run_plan_upto plan spu e n).2.2| < 1 := by
  cases n with
  | zero => exact ⟨h1, h2⟩
  | succ m =>
      rw [run_plan_upto_succ]
      exact ⟨pyModf_fst_abs_lt_one _, pyModf_fst_abs_lt_one _⟩

lemma run_plan_upto_sum (plan : Plan) (spu : ℚ) (e : ℚ × ℚ) (n : ℕ) :
    (((run_plan_upto plan spu e n).1.map fun c => (c.a : ℚ)).sum
        + (run_plan_upto plan spu e n).2.1
      = ((plan.instant ((n : ℚ) * step_s)).p.x - (plan.instant 0).p.x) * spu + e.1)
    ∧ (((run_plan_upto plan spu e n).1.map fun c => (c.b : ℚ)).sum
        + (run_plan_upto plan spu e n).2.2
      = ((plan.instant ((n : ℚ) * step_s)).p.y - (plan.instant 0).p.y) * spu + e.2) := by
  induction n with
  | zero => simp [run_plan_upto_zero]
  | succ m ih =>
      obtain ⟨ihx, ihy⟩ := ih
      have hc : ((m + 1 : ℕ) : ℚ) * step_s = (m : ℚ) * step_s + step_s := by
        push_cast
        ring
      rw [run_plan_upto_succ, hc]
      set S := run_plan_upto plan spu e m with hS
      have hx := pyModf_fst_add_snd
        ((((plan.instant ((m : ℚ) * step_s + step_s)).p.sub
            (plan.instant ((m : ℚ) * step_s)).p).x) * spu + S.2.1)
      have hy := pyModf_fst_add_snd
        ((((plan.instant ((m : ℚ) * step_s + step_s)).p.sub
            (plan.instant ((m : ℚ) * step_s)).p).y) * spu + S.2.2)
      simp only [runPlanTick, List.map_append, List.map_cons, List.map_nil,
        List.sum_append, List.sum_cons, List.sum_nil]
      constructor
      · simp only [Pt.sub] at hx ⊢
        linarith
      · simp only [Pt.sub] at hy ⊢
        linarith

/-- C3: starting from residual error (0, 0), the integer deltas emitted by
Device.run_plan sum, on each axis, to the scaled Cartesian displacement
between the first and last sampled positions minus exactly the final residual
carry, and that carry has absolute value strictly below one step. -/
theorem run_plan_step_sum_matches_displacement (plan : Plan) (spu : ℚ) :
    (((run_plan plan spu (0, 0)).1.map fun c => (c.a : ℚ)).sum
        = ((plan.instant ((numTicks plan.t : ℚ) * step_s)).p.x - (plan.instant 0).p.x) * spu
          - (run_plan plan spu (0, 0)).2.1
      ∧ |(run_plan plan spu (0, 0)).2.1| < 1)
    ∧ (((run_plan plan spu (0, 0)).1.map fun c => (c.b : ℚ)).sum
        = ((plan.instant ((numTicks plan.t : ℚ) * step_s)).p.y - (plan.instant 0).p.y) * spu
          - (run_plan plan spu (0, 0)).2.2
      ∧ |(run_plan plan spu (0, 0)).2.2| < 1) := by
  obtain ⟨hx, hy⟩ := run_plan_upto_sum plan spu (0, 0) (numTicks plan.t)
  obtain ⟨bx, by'⟩ := run_plan_upto_error_lt plan spu (0, 0) (numTicks plan.t)
    (by norm_num) (by norm_num)
  simp only [run_plan] at *
  constructor
  · exact ⟨by linarith, bx⟩
  · exact ⟨by linarith, by'⟩

/-- C4: after every iteration of the step-synthesis loop, each component of
the stored residual error has absolute value strictly below one, for every
plan and every initial residual whose components have absolute value below
one. -/
theorem run_plan_error_invariant (plan : Plan) (spu : ℚ) (e : ℚ × ℚ) (k : ℕ)
    (h1 : |e.1| < 1) (h2 : |e.2| < 1) (hk : k ≤ numTicks plan.t) :
    |(run_plan_upto plan spu e k).2.1| < 1 ∧ |(run_plan_upto plan spu e k).2.2| < 1 :=
  run_plan_upto_error_lt plan spu e k h1 h2

/-- Concrete one-tick plan: duration 3/200 s (one 15 ms tick), moving linearly
from (0, 0) to (1, 0). -/
def demoPlan : Plan := ⟨3 / 200, fun u => ⟨⟨u * 200 / 3, 0⟩⟩⟩

lemma numTicks_demoPlan : numTicks demoPlan.t = 1 := by
  rw [demoPlan, numTicks, step_s, TIMESLICE_MS]
  norm_num

theorem run_plan_error_invariant_witness :
    |((1 : ℚ) / 2, -(1 : ℚ) / 2).1| < 1 ∧ |((1 : ℚ) / 2, -(1 : ℚ) / 2).2| < 1
      ∧ 1 ≤ numTicks demoPlan.t
      ∧ (|(run_plan_upto demoPlan 1 ((1 : ℚ) / 2, -(1 : ℚ) / 2) 1).2.1| < 1
          ∧ |(run_plan_upto demoPlan 1 ((1 : ℚ) / 2, -(1 : ℚ) / 2) 1).2.2| < 1) := by
  have h1 : |((1 : ℚ) / 2, -(1 : ℚ) / 2).1| < 1 := by
    rw [abs_lt]
    norm_num
  have h2 : |((1 : ℚ) / 2, -(1 : ℚ) / 2).2| < 1 := by
    rw [abs_lt]
    norm_num
  have hk : 1 ≤ numTicks demoPlan.t := by rw [numTicks_demoPlan]
  exact ⟨h1, h2, hk, run_plan_error_invariant demoPlan 1 _ 1 h1 h2 hk⟩

lemma run_plan_upto_length (plan : Plan) (spu : ℚ) (e : ℚ × ℚ) (n : ℕ) :
    (run_plan_upto plan spu e n).1.length = n := by
  induction n with
  | zero => rfl
  | succ m ih =>
      rw [run_plan_upto_succ]
      simp [runPlanTick, ih]

lemma run_plan_upto_getElem (plan : Plan) (spu : ℚ) (e : ℚ × ℚ) (k n : ℕ) (h : k < n) :
    (run_plan_upto plan spu e n).1[k]? = some
      ⟨TIMESLICE_MS,
        pyTrunc ((((plan.instant ((k : ℚ) * step_s + step_s)).p.sub
            (plan.instant ((k : ℚ) * step_s)).p).x) * spu
          + (run_plan_upto plan spu e k).2.1),
        pyTrunc ((((plan.instant ((k : ℚ) * step_s + step_s)).p.sub
            (plan.instant ((k : ℚ) * step_s)).p).y) * spu
          + (run_plan_upto plan spu e k).2.2)⟩ := by
  induction n with
  | zero => omega
  | succ m ih =>
      rw [run_plan_upto_succ]
      rcases Nat.lt_succ_iff_lt_or_eq.mp h with h' | rfl
      · show ((run_plan_upto plan spu e m).1 ++ _)[k]? = _
        rw [List.getElem?_append_left (by rw [run_plan_upto_length]; exact h')]
        exact ih h'
      · show ((run_plan_upto plan spu e k).1 ++ [_])[k]? = _
        have hl := run_plan_upto_length plan spu e k
        rw [show ((run_plan_upto plan spu e k).1 ++
              [(⟨TIMESLICE_MS,
                (pyModf ((((plan.instant ((k : ℚ) * step_s + step_s)).p.sub
                    (plan.instant ((k : ℚ) * step_s)).p).x) * spu
                  + (run_plan_upto plan spu e k).2.1)).2,
                (pyModf ((((plan.instant ((k : ℚ) * step_s + step_s)).p.sub
                    (plan.instant ((k : ℚ) * step_s)).p).y) * spu
                  + (run_plan_upto plan spu e k).2.2)).2⟩ : StepCmd)])[k]?
            = ((run_plan_upto plan spu e k).1 ++ [_])[(run_plan_upto plan spu e k).1.length]?
          from by rw [hl]]
        rw [List.getElem?_concat_length]
        rfl

/-- C1 (amended): at every tick of the step-synthesis loop the two integer
deltas of the emitted XM command are computed per Cartesian axis: the first
accumulates dx scaled by steps_per_unit plus the carried error, the second
accumulates dy scaled by steps_per_unit plus the carried error.  The belt
transform to the physical motor axes is not applied inside run_plan. -/
theorem run_plan_tick_deltas (plan : Plan) (spu : ℚ) (e : ℚ × ℚ) (k : ℕ)
    (hk : k < numTicks plan.t) :
    (run_plan plan spu e).1[k]? = some
      ⟨TIMESLICE_MS,
        pyTrunc ((((plan.instant ((k : ℚ) * step_s + step_s)).p.sub
            (plan.instant ((k : ℚ) * step_s)).p).x) * spu
          + (run_plan_upto plan spu e k).2.1),
        pyTrunc ((((plan.instant ((k : ℚ) * step_s + step_s)).p.sub
            (plan.instant ((k : ℚ) * step_s)).p).y) * spu
          + (run_plan_upto plan spu e k).2.2)⟩ :=
  run_plan_upto_getElem plan spu e k _ hk

theorem run_plan_tick_deltas_witness :
    0 < numTicks demoPlan.t
      ∧ (run_plan demoPlan 1 (0, 0)).1[0]? = some ⟨15, 1, 0⟩ := by
  have hk : 0 < numTicks demoPlan.t := by rw [numTicks_demoPlan]; norm_num
  refine ⟨hk, ?_⟩
  have h := run_plan_tick_deltas demoPlan 1 (0, 0) 0 hk
  rw [h, run_plan_upto_zero]
  simp only [Nat.cast_zero]
  have hx : ((demoPlan.instant ((0 : ℚ) * step_s + step_s)).p.sub
      (demoPlan.instant ((0 : ℚ) * step_s)).p).x = 1 := by
    simp [demoPlan, Pt.sub, step_s, TIMESLICE_MS]
    norm_num
  have hy : ((demoPlan.instant ((0 : ℚ) * step_s + step_s)).p.sub
      (demoPlan.instant ((0 : ℚ) * step_s)).p).y = 0 := by
    simp [demoPlan, Pt.sub]
  rw [hx, hy]
  norm_num [pyTrunc, TIMESLICE_MS]

/-- C1 as stated is false: for the one-tick plan moving by (1, 0), the second
delta actually emitted is 0, while the claimed value, the truncation of
(dx - dy) * steps_per_unit plus the carry, is 1. -/
theorem run_plan_belt_claim_counterexample :
    (run_plan demoPlan 1 (0, 0)).1.map (fun c => c.b) = [0]
      ∧ pyTrunc ((((demoPlan.instant ((0 : ℚ) * step_s + step_s)).p.sub
            (demoPlan.instant ((0 : ℚ) * step_s)).p).x
          - ((demoPlan.instant ((0 : ℚ) * step_s + step_s)).p.sub
            (demoPlan.instant ((0 : ℚ) * step_s)).p).y) * 1 + 0) = 1
      ∧ (0 : ℤ) ≠ 1 := by
  refine ⟨?_, ?_, by decide⟩
  · rw [run_plan, numTicks_demoPlan, run_plan_upto_succ, run_plan_upto_zero]
    simp only [runPlanTick, pyModf, List.nil_append, List.map_cons, List.map_nil,
      Nat.cast_zero]
    have hy : ((demoPlan.instant ((0 : ℚ) * step_s + step_s)).p.sub
        (demoPlan.instant ((0 : ℚ) * step_s)).p).y = 0 := by
      simp [demoPlan, Pt.sub]
    rw [hy]
    norm_num [pyTrunc]
  · have hx : ((demoPlan.instant ((0 : ℚ) * step_s + step_s)).p.sub
        (demoPlan.instant ((0 : ℚ) * step_s)).p).x = 1 := by
      simp [demoPlan, Pt.sub, step_s, TIMESLICE_MS]
      norm_num
    have hy : ((demoPlan.instant ((0 : ℚ) * step_s + step_s)).p.sub
        (demoPlan.instant ((0 : ℚ) * step_s)).p).y = 0 := by
      simp [demoPlan, Pt.sub]
    rw [hx, hy]
    norm_num [pyTrunc]

/-- All arguments Device.run_plan passes to plan.instant, in loop order: at
tick k it samples k * step_s and k * step_s + step_s (device.py lines 143
and 144). -/
def run_plan_sample_times (plan : Plan) : List ℚ :=
  (List.range (numTicks plan.t)).flatMap fun k => [(k : ℚ) * step_s, (k : ℚ) * step_s + step_s]

/-- run_plan reads a plan only through instant at the sample times (and
through its duration), confirming that run_plan_sample_times is exactly the
list of queries issued. -/
lemma run_plan_congr (p q : Plan) (spu : ℚ) (e : ℚ × ℚ)
    (ht : numTicks p.t = numTicks q.t)
    (h : ∀ s ∈ run_plan_sample_times p, p.instant s = q.instant s) :
    run_plan p spu e = run_plan q spu e := by
  have main : ∀ n, n ≤ numTicks p.t →
      run_plan_upto p spu e n = run_plan_upto q spu e n := by
    intro n
    induction n with
    | zero => intro _; rfl
    | succ m ih =>
        intro hm
        have hmem1 : ((m : ℚ) * step_s) ∈ run_plan_sample_times p := by
          simp only [run_plan_sample_times, List.mem_flatMap, List.mem_range]
          exact ⟨m, by omega, by simp⟩
        have hmem2 : ((m : ℚ) * step_s + step_s) ∈ run_plan_sample_times p := by
          simp only [run_plan_sample_times, List.mem_flatMap, List.mem_range]
          exact ⟨m, by omega, by simp⟩
        rw [run_plan_upto_succ, run_plan_upto_succ, ih (by omega)]
        simp only [runPlanTick, h _ hmem1, h _ hmem2]
  rw [run_plan, run_plan, ← ht]
  exact main _ le_rfl

/-- Concrete plan of duration 1/50 s (0.02 s), not an exact multiple of the
15 ms tick. -/
def shortPlan : Plan := ⟨1 / 50, fun _ => ⟨⟨0, 0⟩⟩⟩

lemma numTicks_shortPlan : numTicks shortPlan.t = 2 := by
  rw [shortPlan, numTicks, step_s, TIMESLICE_MS]
  rw [show ((1 : ℚ) / 50 / (((15 : ℕ) : ℚ) / 1000)) = 4 / 3 by norm_num]
  rw [show (⌈(4 : ℚ) / 3⌉) = 2 by rw [Int.ceil_eq_iff] <;> norm_num]
  rfl

/-- C2 is violated: for a plan of duration 1/50 s the loop of run_plan passes
3/100 s to plan.instant, strictly past the end of the plan domain; the code
does not clamp the second sample point to min(t + step_s, plan.t). -/
theorem run_plan_queries_past_plan_end :
    shortPlan.t < 3 / 100 ∧ (3 / 100 : ℚ) ∈ run_plan_sample_times shortPlan := by
  constructor
  · rw [shortPlan]
    norm_num
  · simp only [run_plan_sample_times, numTicks_shortPlan, List.mem_flatMap, List.mem_range]
    refine ⟨1, by norm_num, ?_⟩
    rw [step_s, TIMESLICE_MS]
    norm_num

/-- Pen configuration fields of Device (device.py lines 43 to 48), with the
module defaults PEN_UP_POSITION = 60, PEN_UP_SPEED = 150, PEN_UP_DELAY = 0,
PEN_DOWN_POSITION = 50, PEN_DOWN_SPEED = 150, PEN_DOWN_DELAY = 0. -/
structure PenCfg where
  pen_up_position : ℚ
  pen_up_speed : ℚ
  pen_up_delay : ℚ
  pen_down_position : ℚ
  pen_down_speed : ℚ
  pen_down_delay : ℚ
deriving DecidableEq

def defaultPenCfg : PenCfg := ⟨60, 150, 0, 50, 150, 0⟩

/-- An SP command: the code field (1 = raise, 0 = lower) and the delay field,
sent as command SP,code,delay. -/
structure SPCmd where
  code : ℕ
  delay : ℚ
deriving DecidableEq

/-- Device.pen_up (device.py lines 180 to 184). -/
def pen_up (c : PenCfg) : SPCmd :=
  let delta := |c.pen_up_position - c.pen_down_position|
  let duration := pyTrunc (1000 * delta / c.pen_up_speed)
  let delay := max 0 ((duration : ℚ) + c.pen_up_delay)
  ⟨1, delay⟩

/-- Device.pen_down (device.py lines 186 to 190). -/
def pen_down (c : PenCfg) : SPCmd :=
  let delta := |c.pen_up_position - c.pen_down_position|
  let duration := pyTrunc (1000 * delta / c.pen_down_speed)
  let delay := max 0 ((duration : ℚ) + c.pen_down_delay)
  ⟨0, delay⟩

/-- C7: whenever the computed duration plus the configured extra delay is
nonnegative (as with the defaults), pen_up and pen_down send an SP command
whose code is 1 respectively 0 and whose delay field is the integer part of
1000 times the absolute servo travel divided by the speed of that direction,
plus the extra delay of that direction. -/
theorem pen_delay_formula (c : PenCfg)
    (h1 : 0 ≤ ((pyTrunc (1000 * |c.pen_up_position - c.pen_down_position|
        / c.pen_up_speed) : ℚ) + c.pen_up_delay))
    (h2 : 0 ≤ ((pyTrunc (1000 * |c.pen_up_position - c.pen_down_position|
        / c.pen_down_speed) : ℚ) + c.pen_down_delay)) :
    pen_up c = ⟨1, (pyTrunc (1000 * |c.pen_up_position - c.pen_down_position|
        / c.pen_up_speed) : ℚ) + c.pen_up_delay⟩
    ∧ pen_down c = ⟨0, (pyTrunc (1000 * |c.pen_up_position - c.pen_down_position|
        / c.pen_down_speed) : ℚ) + c.pen_down_delay⟩ := by
  rw [pen_up, pen_down]
  exact ⟨by rw [max_eq_right h1], by rw [max_eq_right h2]⟩

lemma pyTrunc_default_pen : pyTrunc (1000 * |(60 : ℚ) - 50| / 150) = 66 := by
  rw [show (1000 * |(60 : ℚ) - 50| / 150) = 200 / 3 by rw [show |(60 : ℚ) - 50| = 10 by norm_num]; norm_num]
  rw [pyTrunc, if_neg (by norm_num)]
  norm_num

theorem pen_delay_formula_witness :
    pen_up defaultPenCfg = ⟨1, 66⟩ ∧ pen_down defaultPenCfg = ⟨0, 66⟩ := by
  have h66 : pyTrunc (1000 * |defaultPenCfg.pen_up_position
      - defaultPenCfg.pen_down_position| / defaultPenCfg.pen_up_speed) = 66 :=
    pyTrunc_default_pen
  have h66b : pyTrunc (1000 * |defaultPenCfg.pen_up_position
      - defaultPenCfg.pen_down_position| / defaultPenCfg.pen_down_speed) = 66 :=
    pyTrunc_default_pen
  have h := pen_delay_formula defaultPenCfg
    (by rw [h66]; norm_num [defaultPenCfg]) (by rw [h66b]; norm_num [defaultPenCfg])
  rw [h.1, h.2, h66, h66b]
  norm_num [defaultPenCfg]

/-- Device.read_position, lines 126 to 130: the raw counters are divided by
steps_per_unit, then y = (a - b) / 2 and x = y + b. -/
def read_position_calc (spu a b : ℚ) : ℚ × ℚ :=
  let a1 := a / spu
  let b1 := b / spu
  let y := (a1 - b1) / 2
  (y + b1, y)

/-- C8: read_position inverts the belt transform: counters that arose as
a = (x + y) * steps_per_unit and b = (x - y) * steps_per_unit are mapped back
to exactly (x, y). -/
theorem read_position_roundtrip (spu x y : ℚ) (hs : spu ≠ 0) :
    read_position_calc spu ((x + y) * spu) ((x - y) * spu) = (x, y) := by
  rw [read_position_calc]
  have ha : (x + y) * spu / spu = x + y := by field_simp
  have hb : (x - y) * spu / spu = x - y := by field_simp
  simp only [ha, hb]
  rw [Prod.mk.injEq]
  constructor <;> ring

theorem read_position_roundtrip_witness :
    (1016 : ℚ) ≠ 0 ∧ read_position_calc 1016 ((3 + 4) * 1016) ((3 - 4) * 1016) = (3, 4) :=
  ⟨by norm_num, read_position_roundtrip 1016 3 4 (by norm_num)⟩

/-- The cached bounding box 4-tuple (x1, y1, x2, y2) of drawing.py. -/
structure Bounds4 where
  x1 : ℚ
  y1 : ℚ
  x2 : ℚ
  y2 : ℚ
deriving DecidableEq

/-- drawing.py Drawing: the ordered path list and the cached bounds field
_bounds (None modelled as Option.none). -/
structure Drawing where
  paths : List (List (ℚ × ℚ))
  boundsCache : Option Bounds4
deriving DecidableEq

/-- The flattened point list of the bounds computation (drawing.py line 20). -/
def allPoints (paths : List (List (ℚ × ℚ))) : List (ℚ × ℚ) := paths.flatten

/-- The bounds recomputation branch of the bounds property (drawing.py lines
19 to 27): min and max of all coordinates, or the zero tuple when there are
no points. -/
def computeBounds (paths : List (List (ℚ × ℚ))) : Bounds4 :=
  match allPoints paths with
  | [] => ⟨0, 0, 0, 0⟩
  | p :: ps =>
      ⟨(ps.map Prod.fst).foldl min p.1, (ps.map Prod.snd).foldl min p.2,
       (ps.map Prod.fst).foldl max p.1, (ps.map Prod.snd).foldl max p.2⟩

/-- Drawing.bounds (drawing.py lines 17 to 29): returns the cached tuple when
present, otherwise recomputes and stores it.  The second component is the
receiver after the property access. -/
def Drawing.bounds (d : Drawing) : Bounds4 × Drawing :=
  match d.boundsCache with
  | some b => (b, d)
  | none => (computeBounds d.paths, ⟨d.paths, some (computeBounds d.paths)⟩)

/-- Drawing.add (drawing.py lines 64 to 66): extends the path list in place
and invalidates the cached bounds. -/
def Drawing.add (d other : Drawing) : Drawing :=
  ⟨d.paths ++ other.paths, none⟩

/-- The cache, when present, holds the bounds of the current path list.  Every
Drawing reachable through the modelled operations satisfies this. -/
def Drawing.validCache (d : Drawing) : Prop :=
  d.boundsCache = none ∨ d.boundsCache = some (computeBounds d.paths)

/-- Statement-side characterisation of a bounding box, following the claim:
the four fields are lower and upper bounds of all coordinates, attained on a
nonempty point list. -/
def isBoundsOf (b : Bounds4) (pts : List (ℚ × ℚ)) : Prop :=
  (∀ p ∈ pts, b.x1 ≤ p.1 ∧ p.1 ≤ b.x2 ∧ b.y1 ≤ p.2 ∧ p.2 ≤ b.y2)
  ∧ (pts ≠ [] →
      (∃ p ∈ pts, p.1 = b.x1) ∧ (∃ p ∈ pts, p.1 = b.x2)
      ∧ (∃ p ∈ pts, p.2 = b.y1) ∧ (∃ p ∈ pts, p.2 = b.y2))

lemma foldl_min_le (l : List ℚ) (a : ℚ) : l.foldl min a ≤ a := by
  induction l generalizing a with
  | nil => exact le_refl a
  | cons x xs ih => exact le_trans (ih (min a x)) (min_le_left a x)

lemma foldl_min_le_mem (l : List ℚ) (a x : ℚ) (hx : x ∈ l) : l.foldl min a ≤ x := by
  induction l generalizing a with
  | nil => cases hx
  | cons y ys ih =>
      rcases List.mem_cons.mp hx with rfl | h
      · exact le_trans (foldl_min_le ys (min a x)) (min_le_right a x)
      · exact ih (min a y) h

lemma foldl_min_mem (l : List ℚ) (a : ℚ) : l.foldl min a = a ∨ l.foldl min a ∈ l := by
  induction l generalizing a with
  | nil => exact Or.inl rfl
  | cons x xs ih =>
      rcases ih (min a x) with h | h
      · rcases min_cases a x with ⟨h1, _⟩ | ⟨h1, _⟩
        · exact Or.inl (by rw [List.foldl_cons, h, h1])
        · exact Or.inr (by rw [List.foldl_cons, h, h1]; exact List.mem_cons_self x xs)
      · exact Or.inr (List.mem_cons_of_mem x h)

lemma le_foldl_max (l : List ℚ) (a : ℚ) : a ≤ l.foldl max a := by
  induction l generalizing a with
  | nil => exact le_refl a
  | cons x xs ih => exact le_trans (le_max_left a x) (ih (max a x))

lemma mem_le_foldl_max (l : List ℚ) (a x : ℚ) (hx : x ∈ l) : x ≤ l.foldl max a := by
  induction l generalizing a with
  | nil => cases hx
  | cons y ys ih =>
      rcases List.mem_cons.mp hx with rfl | h
      · exact le_trans (le_max_right a x) (le_foldl_max ys (max a x))
      · exact ih (max a y) h

lemma foldl_max_mem (l : List ℚ) (a : ℚ) : l.foldl max a = a ∨ l.foldl max a ∈ l := by
  induction l generalizing a with
  | nil => exact Or.inl rfl
  | cons x xs ih =>
      rcases ih (max a x) with h | h
      · rcases max_cases a x with ⟨h1, _⟩ | ⟨h1, _⟩
        · exact Or.inl (by rw [List.foldl_cons, h, h1])
        · exact Or.inr (by rw [List.foldl_cons, h, h1]; exact List.mem_cons_self x xs)
      · exact Or.inr (List.mem_cons_of_mem x h)

lemma computeBounds_isBoundsOf (paths : List (List (ℚ × ℚ))) :
    isBoundsOf (computeBounds paths) (allPoints paths) := by
  rw [computeBounds]
  cases hpts : allPoints paths with
  | nil => exact ⟨fun p hp => absurd (hpts ▸ hp) (List.not_mem_nil p), fun h => absurd rfl h⟩
  | cons q qs =>
      constructor
      · intro p hp
        rcases List.mem_cons.mp hp with rfl | h
        · exact ⟨foldl_min_le _ _, le_foldl_max _ _, foldl_min_le _ _, le_foldl_max _ _⟩
        · refine ⟨foldl_min_le_mem _ _ _ ?_, mem_le_foldl_max _ _ _ ?_,
            foldl_min_le_mem _ _ _ ?_, mem_le_foldl_max _ _ _ ?_⟩
          · exact List.mem_map_of_mem Prod.fst h
          · exact List.mem_map_of_mem Prod.fst h
          · exact List.mem_map_of_mem Prod.snd h
          · exact List.mem_map_of_mem Prod.snd h
      · intro _
        refine ⟨?_, ?_, ?_, ?_⟩
        · rcases foldl_min_mem (qs.map Prod.fst) q.1 with h | h
          · exact ⟨q, List.mem_cons_self q qs, h.symm⟩
          · obtain ⟨p, hp, hpx⟩ := List.mem_map.mp h
            exact ⟨p, List.mem_cons_of_mem q hp, hpx⟩
        · rcases foldl_max_mem (qs.map Prod.fst) q.1 with h | h
          · exact ⟨q, List.mem_cons_self q qs, h.symm⟩
          · obtain ⟨p, hp, hpx⟩ := List.mem_map.mp h
            exact ⟨p, List.mem_cons_of_mem q hp, hpx⟩
        · rcases foldl_min_mem (qs.map Prod.snd) q.2 with h | h
          · exact ⟨q, List.mem_cons_self q qs, h.symm⟩
          · obtain ⟨p, hp, hpy⟩ := List.mem_map.mp h
            exact ⟨p, List.mem_cons_of_mem q hp, hpy⟩
        · rcases foldl_max_mem (qs.map Prod.snd) q.2 with h | h
          · exact ⟨q, List.mem_cons_self q qs, h.symm⟩
          · obtain ⟨p, hp, hpy⟩ := List.mem_map.mp h
            exact ⟨p, List.mem_cons_of_mem q hp, hpy⟩

lemma bounds_fst_of_validCache (d : Drawing) (h : d.validCache) :
    (d.bounds).1 = computeBounds d.paths := by
  rcases h with h | h <;> rw [Drawing.bounds, h]

lemma computeBounds_empty (paths : List (List (ℚ × ℚ))) (h : allPoints paths = []) :
    computeBounds paths = ⟨0, 0, 0, 0⟩ := by
  rw [computeBounds, h]

/-- C9: on a drawing whose cache is consistent, the bounds property returns
exactly the componentwise minima and maxima over all points of all paths,
returning the zero tuple when there are no points; Drawing.add invalidates
the cache, so bounds queried after add is the recomputed box of the extended
path collection. -/
theorem drawing_bounds_spec (d other : Drawing) (h : d.validCache) :
    isBoundsOf (d.bounds).1 (allPoints d.paths)
    ∧ (allPoints d.paths = [] → (d.bounds).1 = ⟨0, 0, 0, 0⟩)
    ∧ ((d.add other).bounds).1 = computeBounds (d.paths ++ other.paths)
    ∧ isBoundsOf ((d.add other).bounds).1 (allPoints (d.paths ++ other.paths)) := by
  have hb := bounds_fst_of_validCache d h
  have hadd : ((d.add other).bounds).1 = computeBounds (d.paths ++ other.paths) := by
    rw [Drawing.add, Drawing.bounds]
  refine ⟨hb ▸ computeBounds_isBoundsOf d.paths, ?_, hadd, ?_⟩
  · intro hnil
    rw [hb, computeBounds_empty d.paths hnil]
  · rw [hadd]
    exact computeBounds_isBoundsOf (d.paths ++ other.paths)

theorem drawing_bounds_spec_witness :
    (Drawing.mk [[(1, 2), (3, -1)]] none).validCache
    ∧ (isBoundsOf ((Drawing.mk [[(1, 2), (3, -1)]] none).bounds).1
          (allPoints (Drawing.mk [[(1, 2), (3, -1)]] none).paths)
      ∧ (allPoints (Drawing.mk [[(1, 2), (3, -1)]] none).paths = [] →
          ((Drawing.mk [[(1, 2), (3, -1)]] none).bounds).1 = ⟨0, 0, 0, 0⟩)
      ∧ (((Drawing.mk [[(1, 2), (3, -1)]] none).add
            (Drawing.mk [[(5, 0)]] none)).bounds).1
          = computeBounds ((Drawing.mk [[(1, 2), (3, -1)]] none).paths
              ++ (Drawing.mk [[(5, 0)]] none).paths)
      ∧ isBoundsOf (((Drawing.mk [[(1, 2), (3, -1)]] none).add
            (Drawing.mk [[(5, 0)]] none)).bounds).1
          (allPoints ((Drawing.mk [[(1, 2), (3, -1)]] none).paths
              ++ (Drawing.mk [[(5, 0)]] none).paths))) :=
  ⟨Or.inl rfl,
    drawing_bounds_spec (Drawing.mk [[(1, 2), (3, -1)]] none)
      (Drawing.mk [[(5, 0)]] none) (Or.inl rfl)⟩

/-- Drawing.transform (drawing.py lines 68 and 69): builds a new Drawing from
the mapped points.  The second component is the receiver after the call; the
method performs no write to self. -/
def Drawing.transform (d : Drawing) (f : (ℚ × ℚ) → ℚ × ℚ) : Drawing × Drawing :=
  (⟨d.paths.map fun path => path.map f, none⟩, d)

/-- Drawing.translate (drawing.py lines 71 to 74). -/
def Drawing.translate (d : Drawing) (dx dy : ℚ) : Drawing × Drawing :=
  d.transform fun p => (p.1 + dx, p.2 + dy)

/-- Drawing.scale (drawing.py lines 76 to 81); the Python default sy = sx is
obtained by passing sx twice. -/
def Drawing.scale (d : Drawing) (sx sy : ℚ) : Drawing × Drawing :=
  d.transform fun p => (p.1 * sx, p.2 * sy)

/-- Drawing.rotate (drawing.py lines 83 to 88).  The parameters c and s stand
for cos(radians(angle)) and sin(radians(angle)); the trigonometric evaluation
is kept symbolic so the development stays over the rationals. -/
def Drawing.rotate (d : Drawing) (c s : ℚ) : Drawing × Drawing :=
  d.transform fun p => (p.1 * c - p.2 * s, p.2 * c + p.1 * s)

/-- Drawing.move (drawing.py lines 90 to 94): reads self.bounds (which may
populate the cache of the receiver) and translates. -/
def Drawing.move (d : Drawing) (x y ax ay : ℚ) : Drawing × Drawing :=
  let r := d.bounds
  let dx := r.1.x1 + (r.1.x2 - r.1.x1) * ax - x
  let dy := r.1.y1 + (r.1.y2 - r.1.y1) * ay - y
  ((r.2.translate (-dx) (-dy)).1, r.2)

/-- Drawing.origin (drawing.py lines 96 and 97). -/
def Drawing.origin (d : Drawing) : Drawing × Drawing := d.move 0 0 0 0

/-- Drawing.width (drawing.py lines 31 to 34). -/
def Drawing.width (d : Drawing) : ℚ × Drawing :=
  let r := d.bounds
  (r.1.x2 - r.1.x1, r.2)

/-- Drawing.height (drawing.py lines 36 to 39). -/
def Drawing.height (d : Drawing) : ℚ × Drawing :=
  let r := d.bounds
  (r.1.y2 - r.1.y1, r.2)

/-- Drawing.center (drawing.py lines 99 and 100). -/
def Drawing.center (d : Drawing) (width height : ℚ) : Drawing × Drawing :=
  d.move (width / 2) (height / 2) (1 / 2) (1 / 2)

/-- Drawing.scale_to_fit (drawing.py lines 115 to 119): reads self.width and
self.height, scales uniformly and centers the new drawing. -/
def Drawing.scale_to_fit (d : Drawing) (width height padding : ℚ) : Drawing × Drawing :=
  let width1 := width - padding * 2
  let height1 := height - padding * 2
  let w := d.width
  let h := w.2.height
  let sc := min (width1 / w.1) (height1 / h.1)
  (((h.2.scale sc sc).1.center width1 height1).1, h.2)

/-- Drawing.remove_paths_outside (drawing.py lines 132 to 142): keeps exactly
the paths all of whose points lie inside [0, width] x [0, height]. -/
def Drawing.remove_paths_outside (d : Drawing) (width height : ℚ) : Drawing × Drawing :=
  (⟨d.paths.filter fun path => path.all fun p =>
      !(decide (p.1 < 0) || decide (p.2 < 0) || decide (p.1 > width)
        || decide (p.2 > height)), none⟩, d)

lemma bounds_snd_paths (d : Drawing) : (d.bounds).2.paths = d.paths := by
  rw [Drawing.bounds]
  cases d.boundsCache <;> rfl

lemma bounds_snd_bounds_fst (d : Drawing) : ((d.bounds).2.bounds).1 = (d.bounds).1 := by
  cases hc : d.boundsCache with
  | some b => simp [Drawing.bounds, hc]
  | none => simp [Drawing.bounds, hc]

/-- C10: each of the geometric operations returns a newly built Drawing and
leaves the paths of the receiver unchanged, as well as the value of its
bounds property (the operations that read bounds may at most fill the cache
of the receiver with the value it would compute anyway). -/
theorem drawing_ops_pure (d : Drawing) (f : (ℚ × ℚ) → ℚ × ℚ)
    (dx dy sx sy c s x y ax ay w h pad rw rh : ℚ) :
    ((d.transform f).2.paths = d.paths ∧ (((d.transform f).2.bounds).1 = (d.bounds).1))
    ∧ ((d.translate dx dy).2.paths = d.paths
        ∧ (((d.translate dx dy).2.bounds).1 = (d.bounds).1))
    ∧ ((d.scale sx sy).2.paths = d.paths ∧ (((d.scale sx sy).2.bounds).1 = (d.bounds).1))
    ∧ ((d.rotate c s).2.paths = d.paths ∧ (((d.rotate c s).2.bounds).1 = (d.bounds).1))
    ∧ ((d.move x y ax ay).2.paths = d.paths
        ∧ (((d.move x y ax ay).2.bounds).1 = (d.bounds).1))
    ∧ ((d.origin).2.paths = d.paths ∧ (((d.origin).2.bounds).1 = (d.bounds).1))
    ∧ ((d.center w h).2.paths = d.paths ∧ (((d.center w h).2.bounds).1 = (d.bounds).1))
    ∧ ((d.scale_to_fit w h pad).2.paths = d.paths
        ∧ (((d.scale_to_fit w h pad).2.bounds).1 = (d.bounds).1))
    ∧ ((d.remove_paths_outside rw rh).2.paths = d.paths
        ∧ (((d.remove_paths_outside rw rh).2.bounds).1 = (d.bounds).1)) := by
  have hmv : ∀ x1 y1 ax1 ay1 : ℚ, (d.move x1 y1 ax1 ay1).2 = (d.bounds).2 := by
    intro x1 y1 ax1 ay1
    rfl
  have hw : (d.width).2 = (d.bounds).2 := rfl
  have hh : ∀ e : Drawing, (e.height).2 = (e.bounds).2 := fun e => rfl
  have hstf : (d.scale_to_fit w h pad).2 = ((d.bounds).2.bounds).2 := rfl
  have hbb : ((d.bounds).2.bounds).2 = (d.bounds).2 := by
    cases hc : d.boundsCache with
    | some b => simp [Drawing.bounds, hc]
    | none => simp [Drawing.bounds, hc]
  refine ⟨⟨rfl, rfl⟩, ⟨rfl, rfl⟩, ⟨rfl, rfl⟩, ⟨rfl, rfl⟩, ?_, ?_, ?_, ?_, ⟨rfl, rfl⟩⟩
  · rw [hmv]
    exact ⟨bounds_snd_paths d, bounds_snd_bounds_fst d⟩
  · rw [Drawing.origin, hmv]
    exact ⟨bounds_snd_paths d, bounds_snd_bounds_fst d⟩
  · rw [Drawing.center, hmv]
    exact ⟨bounds_snd_paths d, bounds_snd_bounds_fst d⟩
  · rw [hstf, hbb]
    exact ⟨bounds_snd_paths d, bounds_snd_bounds_fst d⟩

/-- Device.__init__ (device.py line 56): self.error = (0, 0). -/
def Device.initError : ℚ × ℚ := (0, 0)

/-- The operations run_drawing performs, at the granularity of the claim:
pen raises, pen lowers, and run_path executions (each of which expands to
plan-and-run_plan on the given polyline). -/
inductive Ev where
  | penUp : Ev
  | penDown : Ev
  | path (polyline : List (ℚ × ℚ)) : Ev
deriving DecidableEq

/-- Device.run_path (device.py lines 155 to 158): plans the polyline and runs
the plan.  The planner (make_planner().plan, from the absent planner.py) is
abstracted by the function planFn. -/
def run_path (planFn : List (ℚ × ℚ) → Plan) (spu : ℚ) (path : List (ℚ × ℚ))
    (e : ℚ × ℚ) : List StepCmd × (ℚ × ℚ) :=
  run_plan (planFn path) spu e

/-- The effect of one run_path call on self.error. -/
def run_path_err (planFn : List (ℚ × ℚ) → Plan) (spu : ℚ) (path : List (ℚ × ℚ))
    (e : ℚ × ℚ) : ℚ × ℚ :=
  (run_path planFn spu path e).2

/-- One iteration of the for loop of Device.run_drawing (device.py lines
164 to 169), acting on (events so far, (position, self.error)).  Python
path[0] and path[-1] are embedded as headI and getLastI; a Path is nonempty
by the data model of the spec. -/
def runDrawingStep (planFn : List (ℚ × ℚ) → Plan) (spu : ℚ)
    (st : List Ev × (ℚ × ℚ) × (ℚ × ℚ)) (path : List (ℚ × ℚ)) :
    List Ev × (ℚ × ℚ) × (ℚ × ℚ) :=
  let e1 := run_path_err planFn spu [st.2.1, path.headI] st.2.2
  let e2 := run_path_err planFn spu path e1
  (st.1 ++ [Ev.path [st.2.1, path.headI], Ev.penDown, Ev.path path, Ev.penUp],
    (path.getLastI, e2))

/-- Device.run_drawing (device.py lines 160 to 170): pen up, loop over the
paths, final travel back to the origin.  Returns the event trace and the
final self.error. -/
def run_drawing (planFn : List (ℚ × ℚ) → Plan) (spu : ℚ) (d : Drawing)
    (e0 : ℚ × ℚ) : List Ev × (ℚ × ℚ) :=
  let st := d.paths.foldl (runDrawingStep planFn spu) ([Ev.penUp], ((0, 0), e0))
  (st.1 ++ [Ev.path [st.2.1, (0, 0)]], run_path_err planFn spu [st.2.1, (0, 0)] st.2.2)

/-- Recursive shape of the events the run_drawing loop appends. -/
def loopTrace : List (List (ℚ × ℚ)) → (ℚ × ℚ) → List Ev
  | [], _ => []
  | p :: ps, pos =>
      Ev.path [pos, p.headI] :: Ev.penDown :: Ev.path p :: Ev.penUp
        :: loopTrace ps p.getLastI

/-- The position variable after the run_drawing loop. -/
def loopPos : List (List (ℚ × ℚ)) → (ℚ × ℚ) → ℚ × ℚ
  | [], pos => pos
  | p :: ps, _ => loopPos ps p.getLastI

/-- The error after the run_drawing loop. -/
def loopErr (planFn : List (ℚ × ℚ) → Plan) (spu : ℚ) :
    List (List (ℚ × ℚ)) → (ℚ × ℚ) → (ℚ × ℚ) → ℚ × ℚ
  | [], _, e => e
  | p :: ps, pos, e =>
      loopErr planFn spu ps p.getLastI
        (run_path_err planFn spu p (run_path_err planFn spu [pos, p.headI] e))

lemma run_drawing_loop (planFn : List (ℚ × ℚ) → Plan) (spu : ℚ)
    (ps : List (List (ℚ × ℚ))) :
    ∀ (evs : List Ev) (pos : ℚ × ℚ) (e : ℚ × ℚ),
      ps.foldl (runDrawingStep planFn spu) (evs, (pos, e)) =
        (evs ++ loopTrace ps pos, (loopPos ps pos, loopErr planFn spu ps pos e)) := by
  induction ps with
  | nil =>
      intro evs pos e
      simp [loopTrace, loopPos, loopErr]
  | cons p ps ih =>
      intro evs pos e
      rw [List.foldl_cons]
      simp only [runDrawingStep]
      rw [ih]
      simp [loopTrace, loopPos, loopErr, List.append_assoc]

/-- The order of operations stated by the claim: for each path in order, a
travel from the current position to the first point of the path, pen down,
the path, pen up, the position becoming the last point of the path; finally
the travel back to the origin. -/
def expectedTrace : List (List (ℚ × ℚ)) → (ℚ × ℚ) → List Ev
  | [], pos => [Ev.path [pos, (0, 0)]]
  | p :: ps, pos =>
      Ev.path [pos, p.headI] :: Ev.penDown :: Ev.path p :: Ev.penUp
        :: expectedTrace ps p.getLastI

lemma expectedTrace_eq (ps : List (List (ℚ × ℚ))) :
    ∀ pos, expectedTrace ps pos
      = loopTrace ps pos ++ [Ev.path [loopPos ps pos, (0, 0)]] := by
  induction ps with
  | nil => intro pos; simp [expectedTrace, loopTrace, loopPos]
  | cons p ps ih => intro pos; simp [expectedTrace, loopTrace, loopPos, ih]

/-- The polylines on which run_drawing invokes run_path, in execution order:
travel moves interleaved with the member paths, ending with the travel back
to the origin. -/
def executedPolylines : List (List (ℚ × ℚ)) → (ℚ × ℚ) → List (List (ℚ × ℚ))
  | [], pos => [[pos, (0, 0)]]
  | p :: ps, pos => [pos, p.headI] :: p :: executedPolylines ps p.getLastI

lemma executedPolylines_foldl (planFn : List (ℚ × ℚ) → Plan) (spu : ℚ)
    (ps : List (List (ℚ × ℚ))) :
    ∀ pos e,
      (executedPolylines ps pos).foldl (fun e1 q => run_path_err planFn spu q e1) e
        = run_path_err planFn spu [loopPos ps pos, (0, 0)] (loopErr planFn spu ps pos e) := by
  induction ps with
  | nil => intro pos e; simp [executedPolylines, loopPos, loopErr]
  | cons p ps ih => intro pos e; simp [executedPolylines, loopPos, loopErr, ih]

/-- C5: the residual step error is (0, 0) when a Device is constructed, and
during run_drawing it is written only by the per-tick update inside run_plan:
the final error equals the sequential threading of the run_path error updates
through every executed polyline, starting from the incoming error, with no
reset between consecutive path executions (pen moves do not touch it). -/
theorem error_persists_across_paths (planFn : List (ℚ × ℚ) → Plan) (spu : ℚ)
    (d : Drawing) (e0 : ℚ × ℚ) :
    Device.initError = (0, 0)
    ∧ (run_drawing planFn spu d e0).2 =
        (executedPolylines d.paths (0, 0)).foldl
          (fun e q => run_path_err planFn spu q e) e0 := by
  refine ⟨rfl, ?_⟩
  have hl := run_drawing_loop planFn spu d.paths [Ev.penUp] (0, 0) e0
  simp only [run_drawing, hl]
  rw [executedPolylines_foldl]

/-- Pairs each event with the pen state (true = pen down) in effect when it
is issued, starting from a given state. -/
def annotatePen : Bool → List Ev → List (Bool × Ev)
  | _, [] => []
  | down, ev :: rest =>
      (down, ev) :: annotatePen
        (match ev with
          | Ev.penUp => false
          | Ev.penDown => true
          | Ev.path _ => down) rest

lemma expectedTrace_pen (ps : List (List (ℚ × ℚ))) :
    ∀ pos q, (true, Ev.path q) ∈ annotatePen false (expectedTrace ps pos) → q ∈ ps := by
  induction ps with
  | nil =>
      intro pos q h
      simp [expectedTrace, annotatePen] at h
  | cons p ps ih =>
      intro pos q h
      simp only [expectedTrace, annotatePen, List.mem_cons] at h
      rcases h with h | h | h | h | h
      · exact absurd (congrArg Prod.fst h) (by simp)
      · exact absurd (congrArg Prod.snd h) (by simp)
      · rw [List.mem_cons]
        exact Or.inl (by simpa using congrArg Prod.snd h)
      · exact absurd (congrArg Prod.snd h) (by simp)
      · exact List.mem_cons_of_mem p (ih p.getLastI q h)

/-- C6: run_drawing issues, in order: pen up; then for each path in order a
pen-up travel from the current position to the first point of the path, pen
down, the path itself, pen up, the position becoming the last point of the
path; finally a travel back to the origin.  Moreover every polyline executed
while the pen is down is a member path of the drawing, so travel moves
between paths are always executed with the pen up. -/
theorem run_drawing_command_order (planFn : List (ℚ × ℚ) → Plan) (spu : ℚ)
    (d : Drawing) (e0 : ℚ × ℚ) :
    (run_drawing planFn spu d e0).1 = Ev.penUp :: expectedTrace d.paths (0, 0)
    ∧ ∀ q, (true, Ev.path q) ∈ annotatePen true (run_drawing planFn spu d e0).1
        → q ∈ d.paths := by
  have hl := run_drawing_loop planFn spu d.paths [Ev.penUp] (0, 0) e0
  have htr : (run_drawing planFn spu d e0).1
      = Ev.penUp :: expectedTrace d.paths (0, 0) := by
    simp only [run_drawing, hl]
    rw [expectedTrace_eq]
    simp
  refine ⟨htr, ?_⟩
  intro q hq
  rw [htr] at hq
  simp only [annotatePen, List.mem_cons] at hq
  rcases hq with h | h
  · exact absurd (congrArg Prod.snd h) (by simp)
  · exact expectedTrace_pen d.paths (0, 0) q h

end Axi
